import Mathlib

/-!
Verification of the ds-text-editor engine (src/server.js, with the earlier
revision in src/unnamed/part_000).

Texts are modelled as `List Char` (JavaScript strings, one entry per code
point of the texts involved).  Each JavaScript function or method used by the
claims is translated into an executable Lean definition:

* `jsSlice2` / `jsSlice1`  —  `String.prototype.slice` with the ECMAScript
  clamping of its integer arguments;
* `Rope`, `Rope.insert`, `Rope.delete`, `Rope.toString`  —  the rope class
  (which rebuilds a single leaf on every edit);
* `UndoRedoManager`  —  the undo/redo stacks (JS `push`/`pop` operate at the
  end of the list, `shift` removes the head);
* `Trie`  —  the suggestion trie, children as an insertion-ordered
  association list (`for...in` over the JS property bag);
* `boyerMooreSearch`  —  the Boyer–Moore scan, with the JS quirks kept:
  out-of-range indexing yields `undefined` (`Option.none`), the bad-character
  table lookup of an unknown character yields `undefined`, so the matched-case
  shift `m - badChar[c] || -1` is `NaN || -1 = -1`.  The outer `while` loop is
  modelled with explicit fuel: `none` means the loop has not finished.
* `updateFile`, `checkSpelling`, `learnWords`  —  the bodies of the
  `POST /api/file/:name/update` and `POST /api/check-spelling` routes.
-/

/-- JS `s.toLowerCase()` on the basic latin range, applied per character. -/
def lowerStr (s : List Char) : List Char := s.map Char.toLower

/-- JS string indexing `s[i]`: `undefined` (`none`) when out of range. -/
def jsCharAt (s : List Char) (i : Int) : Option Char :=
  if 0 ≤ i then s[i.toNat]? else none

/-- JS `s.slice(a, b)` (ECMAScript: negative indices count from the end,
then both are clamped into `[0, length]`). -/
def jsSlice2 (s : List Char) (a b : Int) : List Char :=
  let len : Int := s.length
  let i0 : Int := if a < 0 then max (len + a) 0 else min a len
  let i1 : Int := if b < 0 then max (len + b) 0 else min b len
  (s.take i1.toNat).drop i0.toNat

/-- JS `s.slice(a)` — one-argument slice, the end defaults to the length. -/
def jsSlice1 (s : List Char) (a : Int) : List Char := jsSlice2 s a s.length

/-! ## Rope (src/server.js lines 14–40, src/unnamed/part_000 lines 18–61) -/

/-- A rope node: `value`, nullable `left`/`right` children, cached `weight`. -/
inductive RopeNode where
  | mk (value : List Char) (left : Option RopeNode) (right : Option RopeNode)
      (weight : Nat)

/-- The `RopeNode` constructor: `this.weight = value.length`. -/
def RopeNode.new (value : List Char) : RopeNode := .mk value none none value.length

/-- `Rope.toString(node)`: a leaf (no children) yields its value, an internal
node concatenates the strings of its children (`toString(null) = ""`). -/
def ropeNodeToString : Option RopeNode → List Char
  | none => []
  | some (.mk v none none _) => v
  | some (.mk _ (some l) none _) => ropeNodeToString (some l) ++ ropeNodeToString none
  | some (.mk _ none (some r) _) => ropeNodeToString none ++ ropeNodeToString (some r)
  | some (.mk _ (some l) (some r) _) =>
      ropeNodeToString (some l) ++ ropeNodeToString (some r)

/-- The `Rope` class holds a single root node. -/
structure Rope where
  root : RopeNode

/-- `new Rope(str)`. -/
def Rope.new (str : List Char) : Rope := ⟨RopeNode.new str⟩

/-- `rope.toString()` starting from the root. -/
def Rope.toString (r : Rope) : List Char := ropeNodeToString (some r.root)

/-- `Rope.insert(index, text)`: reads the whole text, splices `text` in with
`slice`, rebuilds a single leaf, and returns the new text. -/
def Rope.insert (r : Rope) (index : Int) (text : List Char) : Rope × List Char :=
  let currentText := r.toString
  let newText := jsSlice2 currentText 0 index ++ text ++ jsSlice1 currentText index
  (⟨RopeNode.new newText⟩, newText)

/-- `Rope.delete(start, end)` (src/unnamed/part_000 lines 55–60): drops the
slice between the two offsets, rebuilds a single leaf, returns the new text. -/
def Rope.delete (r : Rope) (start stop : Int) : Rope × List Char :=
  let currentText := r.toString
  let newText := jsSlice2 currentText 0 start ++ jsSlice1 currentText stop
  (⟨RopeNode.new newText⟩, newText)

/-! ## UndoRedoManager (src/server.js lines 119–148) -/

/-- The two snapshot stacks; JS arrays with `push`/`pop` at the END of the
list, so the top of each stack is the last element. -/
structure UndoRedoManager where
  undoStack : List (List Char)
  redoStack : List (List Char)
  maxSize : Nat

/-- `new UndoRedoManager()`. -/
def UndoRedoManager.new : UndoRedoManager := ⟨[], [], 50⟩

/-- `saveState(text)`: push unless equal to the top; after a push, `shift`
the oldest entry out when the stack exceeds `maxSize`, and clear redo. -/
def UndoRedoManager.saveState (m : UndoRedoManager) (text : List Char) :
    UndoRedoManager :=
  if m.undoStack = [] ∨ m.undoStack.getLast? ≠ some text then
    let pushed := m.undoStack ++ [text]
    ⟨if m.maxSize < pushed.length then pushed.tail else pushed, [], m.maxSize⟩
  else m

/-- `undo(currentText)`: empty stack is a no-op returning `currentText`;
otherwise pop the top snapshot, push `currentText` on redo, return it. -/
def UndoRedoManager.undo (m : UndoRedoManager) (currentText : List Char) :
    List Char × UndoRedoManager :=
  match m.undoStack.getLast? with
  | none => (currentText, m)
  | some previous =>
      (previous, ⟨m.undoStack.dropLast, m.redoStack ++ [currentText], m.maxSize⟩)

/-- `redo(currentText)`: symmetric to `undo`. -/
def UndoRedoManager.redo (m : UndoRedoManager) (currentText : List Char) :
    List Char × UndoRedoManager :=
  match m.redoStack.getLast? with
  | none => (currentText, m)
  | some next =>
      (next, ⟨m.undoStack ++ [currentText], m.redoStack.dropLast, m.maxSize⟩)

/-- States reachable from a fresh `UndoRedoManager` by any sequence of
`saveState` / `undo` / `redo` calls. -/
inductive ReachableURM : UndoRedoManager → Prop
  | new : ReachableURM UndoRedoManager.new
  | save (m : UndoRedoManager) (t : List Char) :
      ReachableURM m → ReachableURM (m.saveState t)
  | stepUndo (m : UndoRedoManager) (c : List Char) :
      ReachableURM m → ReachableURM (m.undo c).2
  | stepRedo (m : UndoRedoManager) (c : List Char) :
      ReachableURM m → ReachableURM (m.redo c).2

/-! ## Trie (src/server.js lines 45–95) -/

mutual

/-- A trie node: `children` is the JS property bag `char -> TrieNode`,
modelled as an association list in insertion order, plus `isEndOfWord`. -/
inductive TrieNode where
  | mk (children : TrieChildren) (isEndOfWord : Bool)

/-- Insertion-ordered children list of a trie node. -/
inductive TrieChildren where
  | nil
  | cons (key : Char) (child : TrieNode) (rest : TrieChildren)

end

/-- Lookup in the children bag: the binding of `c`, or `undefined`. -/
def TrieChildren.lookup : TrieChildren → Char → Option TrieNode
  | .nil, _ => none
  | .cons k child rest, c => if k = c then some child else rest.lookup c

/-- Store a child under `c`: overwrite the existing binding in place, or
append a new binding at the end of the bag (JS property creation order). -/
def TrieChildren.set : TrieChildren → Char → TrieNode → TrieChildren
  | .nil, c, v => .cons c v .nil
  | .cons k child rest, c, v =>
      if k = c then .cons k v rest else .cons k child (rest.set c v)

/-- A freshly constructed `TrieNode` (empty bag, not an end of word). -/
def TrieNode.new : TrieNode := .mk .nil false

/-- The walk of `Trie.insert` over an (already lowercased) word: descend
through `children`, creating missing nodes, and mark the final node. -/
def trieInsertLower : TrieNode → List Char → TrieNode
  | .mk children _, [] => .mk children true
  | .mk children e, c :: cs =>
      let child := (children.lookup c).getD TrieNode.new
      .mk (children.set c (trieInsertLower child cs)) e

/-- The descent of `Trie.find` over an (already lowercased) prefix: the node
reached after consuming the prefix, or `none` when a child is missing. -/
def trieWalk : TrieNode → List Char → Option TrieNode
  | node, [] => some node
  | .mk children _, c :: cs =>
      match children.lookup c with
      | none => none
      | some child => trieWalk child cs

/-- The loop of `Trie.contains` over an (already lowercased) word: walk the
word, answering `false` on a missing child and `isEndOfWord` at the end. -/
def trieContainsLower : TrieNode → List Char → Bool
  | .mk _ e, [] => e
  | .mk children _, c :: cs =>
      match children.lookup c with
      | none => false
      | some child => trieContainsLower child cs

mutual

/-- `Trie._findAllWords(node, currentPrefix)`: push `currentPrefix` when the
node ends a word, concatenate the recursive results of all children (each
already capped), and cap the result with `slice(0, 8)`. -/
def findAllWords : TrieNode → List Char → List (List Char)
  | .mk children e, cur =>
      ((if e then [cur] else []) ++ findAllWordsChildren children cur).take 8

/-- The `for (let char in node.children)` loop of `_findAllWords`. -/
def findAllWordsChildren : TrieChildren → List Char → List (List Char)
  | .nil, _ => []
  | .cons k child rest, cur =>
      findAllWords child (cur ++ [k]) ++ findAllWordsChildren rest cur

end

/-- The `Trie` class holds a root `TrieNode`. -/
structure Trie where
  root : TrieNode

/-- `new Trie()`. -/
def Trie.new : Trie := ⟨TrieNode.new⟩

/-- `Trie.insert(word)`: lowercase, then walk/create and mark. -/
def Trie.insert (t : Trie) (word : List Char) : Trie :=
  ⟨trieInsertLower t.root (lowerStr word)⟩

/-- `Trie.find(prefix)`: lowercase the prefix, walk it, return `[]` when a
child is missing and `_findAllWords(node, prefix)` otherwise. -/
def Trie.find (t : Trie) (pfx : List Char) : List (List Char) :=
  match trieWalk t.root (lowerStr pfx) with
  | none => []
  | some node => findAllWords node (lowerStr pfx)

/-- `Trie.contains(word)`: lowercase, then the membership walk. -/
def Trie.contains (t : Trie) (word : List Char) : Bool :=
  trieContainsLower t.root (lowerStr word)

/-- The trie obtained from a fresh `Trie` by a sequence of `insert` calls. -/
def buildTrie (ws : List (List Char)) : Trie := ws.foldl Trie.insert Trie.new

/-- Membership of a binding in a children bag (any binding, not only the one
`lookup` finds first). -/
inductive ChildMem : TrieChildren → Char → TrieNode → Prop
  | head (c : Char) (child : TrieNode) (rest : TrieChildren) :
      ChildMem (.cons c child rest) c child
  | tail (k : Char) (ch : TrieNode) (rest : TrieChildren) (c : Char)
      (child : TrieNode) :
      ChildMem rest c child → ChildMem (.cons k ch rest) c child

/-- `HasPath node w` — descending from `node` along the characters of `w`
(through any matching binding) reaches a node marked as end of word. -/
inductive HasPath : TrieNode → List Char → Prop
  | here (ch : TrieChildren) : HasPath (.mk ch true) []
  | step (ch : TrieChildren) (e : Bool) (c : Char) (child : TrieNode)
      (cs : List Char) :
      ChildMem ch c child → HasPath child cs → HasPath (.mk ch e) (c :: cs)

/-! ## Boyer–Moore search (src/server.js lines 153–172) -/

/-- The bad-character table lookup `badChar[oc]`: the table maps each pattern
character to its LAST index in the pattern (later writes overwrite earlier
ones); looking up `undefined` or an absent character yields `undefined`. -/
def bmBadChar (pat : List Char) (oc : Option Char) : Option Nat :=
  match oc with
  | none => none
  | some c => pat.enum.foldl (fun acc p => if p.2 = c then some p.1 else acc) none

/-- The inner scan `while (j >= 0 && pattern[j] === text[s + j]) j--`,
started at `j` and returning the final value of `j` (`-1` after a full
match).  `===` compares possibly-`undefined` values for equality. -/
def bmScan (text pat : List Char) (s : Int) : Nat → Int
  | 0 => if pat[0]? == jsCharAt text s then -1 else 0
  | j + 1 =>
      if pat[j + 1]? == jsCharAt text (s + (j + 1 : Nat)) then bmScan text pat s j
      else ((j + 1 : Nat) : Int)

/-- One shift of the matched case, `(s + m < n) ? m - badChar[text[s + m]] || -1 : 1`:
an absent character makes `m - undefined` evaluate to `NaN` (modelled as
`none`), and both `NaN` and `0` are falsy, so `|| -1` turns them into `-1`. -/
def bmMatchShift (text pat : List Char) (s : Int) : Int :=
  let n : Int := text.length
  let m : Int := pat.length
  if s + m < n then
    match (bmBadChar pat (jsCharAt text (s + m))).map (fun k => m - (k : Int)) with
    | none => -1
    | some d => if d = 0 then -1 else d
  else 1

/-- One shift of the mismatched case,
`Math.max(1, j - (badChar[text[s + j]] !== undefined ? badChar[text[s + j]] : -1))`. -/
def bmMismatchShift (text pat : List Char) (s j : Int) : Int :=
  let lastOcc : Int :=
    match bmBadChar pat (jsCharAt text (s + j)) with
    | some k => (k : Int)
    | none => -1
  max 1 (j - lastOcc)

/-- The outer `while (s <= n - m)` loop, with explicit fuel; `none` means the
loop has not terminated within `fuel` iterations. -/
def bmLoop (text pat : List Char) : Nat → Int → List Int → Option (List Int)
  | 0, _, _ => none
  | fuel + 1, s, results =>
      let n : Int := text.length
      let m : Int := pat.length
      if s ≤ n - m then
        let j := bmScan text pat s (pat.length - 1)
        if j < 0 then
          bmLoop text pat fuel (s + bmMatchShift text pat s) (results ++ [s])
        else
          bmLoop text pat fuel (s + bmMismatchShift text pat s j) results
      else some results

/-- `boyerMooreSearch(text, pattern)`: empty pattern returns `[]`, otherwise
run the scan loop from shift `0`. -/
def boyerMooreSearch (text pat : List Char) (fuel : Nat) : Option (List Int) :=
  if pat.length = 0 then some [] else bmLoop text pat fuel 0 []

/-! ## Route bodies (src/server.js lines 205–262) -/

/-- JS `\s` for the characters relevant here (the ECMAScript WhiteSpace and
LineTerminator sets). -/
def isJsWhitespace (c : Char) : Bool :=
  c = ' ' || c = '\t' || c = '\n' || c.toNat = 11 || c.toNat = 12 || c = '\r' ||
  c.toNat = 0xa0 || c.toNat = 0x1680 || (0x2000 ≤ c.toNat && c.toNat ≤ 0x200a) ||
  c.toNat = 0x2028 || c.toNat = 0x2029 || c.toNat = 0x202f || c.toNat = 0x205f ||
  c.toNat = 0x3000 || c.toNat = 0xfeff

/-- The separator class of the learning regex `/[\s\n\.\,\!\?]+/`. -/
def isLearnSep (c : Char) : Bool :=
  isJsWhitespace c || c = '.' || c = ',' || c = '!' || c = '?'

/-- JS `text.split(re)` where `re` matches a RUN of separator characters:
consecutive separators form one delimiter, and delimiters at the ends
contribute empty fields. -/
def splitRuns (p : Char → Bool) : List Char → List (List Char)
  | [] => [[]]
  | [c] => if p c then [[], []] else [[c]]
  | c :: d :: rest =>
      match splitRuns p (d :: rest) with
      | [] => [[]]
      | t :: ts =>
          if p c then (if p d then t :: ts else [] :: t :: ts)
          else (c :: t) :: ts

/-- The learning loop of the update route: every split field longer than two
characters is lowercased and inserted into the suggestion trie. -/
def learnWords (trie : Trie) (text : List Char) : Trie :=
  (splitRuns isLearnSep text).foldl
    (fun tr w => if 2 < w.length then tr.insert (lowerStr w) else tr) trie

/-- A document entry of the `files` map: a rope and its history manager. -/
structure DocFile where
  content : Rope
  history : UndoRedoManager

/-- The body of `POST /api/file/:name/update` (src/server.js lines 205–225):
when the new text differs from the current one, snapshot the old text,
replace the rope, and learn the words of the new text; otherwise nothing. -/
def updateFile (f : DocFile) (trie : Trie) (text : List Char) :
    DocFile × Trie :=
  let currentStr := f.content.toString
  if currentStr ≠ text then
    (⟨Rope.new text, f.history.saveState currentStr⟩, learnWords trie text)
  else (f, trie)

/-- ASCII letters, the `[a-zA-Z]` class of the spelling regex. -/
def isAsciiAlpha (c : Char) : Bool :=
  ('a' ≤ c && c ≤ 'z') || ('A' ≤ c && c ≤ 'Z')

/-- JS regex word characters `[A-Za-z0-9_]`, which decide `\b` boundaries. -/
def isJsWordChar (c : Char) : Bool :=
  isAsciiAlpha c || ('0' ≤ c && c ≤ '9') || c = '_'

/-- The scan of `text.match(/\b[a-zA-Z]{3,}\b/g) || []`: a single pass that
accumulates the current run of ASCII letters in `run`; `prevOk` records
whether the character just before the current run was a word boundary (start
of string or a non-word character).  A run is a token when it has length at
least 3 and both of its ends sit at `\b` boundaries: `prevOk` before it, and
after it either the end of the string or a non-word character. -/
def extractTokensGo (prevOk : Bool) (run : List Char) :
    List Char → List (List Char)
  | [] => if 3 ≤ run.length ∧ prevOk = true then [run] else []
  | c :: rest =>
      if isAsciiAlpha c then extractTokensGo prevOk (run ++ [c]) rest
      else
        (if 3 ≤ run.length ∧ prevOk = true ∧ isJsWordChar c = false
          then [run] else []) ++ extractTokensGo (!isJsWordChar c) [] rest

/-- `text.match(/\b[a-zA-Z]{3,}\b/g) || []`: the maximal runs of ASCII
letters of length at least 3 delimited by `\b` word boundaries (their
neighbouring characters, when present, are not word characters). -/
def extractTokens (s : List Char) : List (List Char) := extractTokensGo true [] s

/-- `[...new Set(l)]`: distinct elements, first occurrences kept in order. -/
def jsSetDedupAux {α : Type} [DecidableEq α] (seen : List α) : List α → List α
  | [] => []
  | x :: xs =>
      if x ∈ seen then jsSetDedupAux seen xs else x :: jsSetDedupAux (x :: seen) xs

/-- `[...new Set(l)]` with no elements seen yet. -/
def jsSetDedup {α : Type} [DecidableEq α] (l : List α) : List α := jsSetDedupAux [] l

/-- The body of `POST /api/check-spelling` (src/server.js lines 249–262):
extract the tokens, keep those the trie does not contain, deduplicate. -/
def checkSpelling (trie : Trie) (text : List Char) : List (List Char) :=
  let words := extractTokens text
  let wrongWords := words.filter (fun w => !trie.contains w)
  jsSetDedup wrongWords

/-- The single pass behind `claimAlphaRuns`, accumulating the current
alphabetic run. -/
def claimRunsGo (run : List Char) : List Char → List (List Char)
  | [] => if run = [] then [] else [run]
  | c :: rest =>
      if isAsciiAlpha c then claimRunsGo (run ++ [c]) rest
      else (if run = [] then [] else [run]) ++ claimRunsGo [] rest

/-- Modelled from the claim's words, for comparison with the source's token
regex: the maximal runs of alphabetic characters of the text. -/
def claimAlphaRuns (s : List Char) : List (List Char) := claimRunsGo [] s

/-- The token list the claim describes: "runs of 3 or more alphabetic
characters". -/
def claimTokens (s : List Char) : List (List Char) :=
  (claimAlphaRuns s).filter (fun r => 3 ≤ r.length)

/-! ## Theorems -/

theorem rope_toString_new (s : List Char) : (Rope.new s).toString = s := by
  simp [Rope.new, Rope.toString, RopeNode.new, ropeNodeToString]

theorem tail_append_of_ne_nil {α : Type} (l l' : List α) (h : l ≠ []) :
    (l ++ l').tail = l.tail ++ l' := by
  cases l with
  | nil => exact absurd rfl h
  | cons a t => simp

/-- Claim C5: calling the update route with the text the buffer already holds
is a complete no-op: the document (hence both stack depths and the buffer
text) and the shared suggestion trie are returned unchanged. -/
theorem updateFile_noop_C5 (f : DocFile) (trie : Trie) (t : List Char)
    (h : f.content.toString = t) :
    updateFile f trie t = (f, trie)
    ∧ (updateFile f trie t).1.history.undoStack.length
        = f.history.undoStack.length
    ∧ (updateFile f trie t).1.history.redoStack.length
        = f.history.redoStack.length
    ∧ (updateFile f trie t).1.content.toString = f.content.toString
    ∧ (updateFile f trie t).2 = trie := by
  have he : updateFile f trie t = (f, trie) := by
    unfold updateFile
    simp [h]
  refine ⟨he, ?_, ?_, ?_, ?_⟩ <;> rw [he]

/-- Witness for C5 at a concrete document whose text equals the update. -/
theorem updateFile_noop_C5_witness :
    (DocFile.mk (Rope.new ("hi".toList)) UndoRedoManager.new).content.toString
        = "hi".toList
    ∧ updateFile (DocFile.mk (Rope.new ("hi".toList)) UndoRedoManager.new)
        Trie.new ("hi".toList)
      = (DocFile.mk (Rope.new ("hi".toList)) UndoRedoManager.new, Trie.new) :=
  ⟨rope_toString_new ("hi".toList),
   (updateFile_noop_C5 (DocFile.mk (Rope.new ("hi".toList)) UndoRedoManager.new)
     Trie.new ("hi".toList) (rope_toString_new ("hi".toList))).1⟩

/-- Claim C6: `saveState t` is a no-op when `t` equals the top of the undo
stack; otherwise it pushes `t` and clears the redo stack, and when the stack
already held 50 snapshots the oldest (bottom) entry is evicted. -/
theorem saveState_C6 (m : UndoRedoManager) (t : List Char)
    (hmax : m.maxSize = 50) :
    (m.undoStack.getLast? = some t → m.saveState t = m)
    ∧ (m.undoStack.getLast? ≠ some t →
        (m.saveState t).redoStack = []
        ∧ (m.undoStack.length < 50 →
            (m.saveState t).undoStack = m.undoStack ++ [t])
        ∧ (m.undoStack.length = 50 →
            (m.saveState t).undoStack = m.undoStack.tail ++ [t])) := by
  constructor
  · intro htop
    have hne : m.undoStack ≠ [] := by
      intro hnil
      rw [hnil] at htop
      simp at htop
    unfold UndoRedoManager.saveState
    rw [if_neg]
    push_neg
    exact ⟨hne, by simp [htop]⟩
  · intro htop
    unfold UndoRedoManager.saveState
    rw [if_pos (Or.inr htop)]
    refine ⟨rfl, ?_, ?_⟩
    · intro hlt
      have : ¬ m.maxSize < (m.undoStack ++ [t]).length := by
        simp only [List.length_append, List.length_cons, List.length_nil]
        omega
      simp only [this, if_false]
    · intro hlen
      have hgt : m.maxSize < (m.undoStack ++ [t]).length := by
        simp only [List.length_append, List.length_cons, List.length_nil]
        omega
      have hne : m.undoStack ≠ [] := by
        intro hnil
        rw [hnil] at hlen
        simp at hlen
      simp only [hgt, if_true]
      exact tail_append_of_ne_nil _ _ hne

/-- Witness for C6: pushing onto a fresh manager. -/
theorem saveState_C6_witness :
    UndoRedoManager.new.maxSize = 50
    ∧ UndoRedoManager.new.undoStack.getLast? ≠ some ("a".toList)
    ∧ (UndoRedoManager.new.saveState ("a".toList)).redoStack = []
    ∧ (UndoRedoManager.new.saveState ("a".toList)).undoStack
        = UndoRedoManager.new.undoStack ++ ["a".toList] :=
  ⟨rfl, by decide,
   ((saveState_C6 UndoRedoManager.new ("a".toList) rfl).2 (by decide)).1,
   ((saveState_C6 UndoRedoManager.new ("a".toList) rfl).2 (by decide)).2.1
     (by decide)⟩

/-- Claim C7: `undo` on an empty undo stack is a no-op returning the current
text (symmetrically for `redo`); on a non-empty stack `undo` pops the most
recent snapshot, pushes the current text on redo, and returns the snapshot
(symmetrically for `redo`); and `undo` followed by `redo` (each fed the text
the previous call returned) restores the pre-undo text and both stacks. -/
theorem undo_redo_C7 (m : UndoRedoManager) (c : List Char) :
    (m.undoStack = [] → m.undo c = (c, m))
    ∧ (m.redoStack = [] → m.redo c = (c, m))
    ∧ (∀ rest pre, m.undoStack = rest ++ [pre] →
        m.undo c = (pre, ⟨rest, m.redoStack ++ [c], m.maxSize⟩))
    ∧ (∀ rest nxt, m.redoStack = rest ++ [nxt] →
        m.redo c = (nxt, ⟨m.undoStack ++ [c], rest, m.maxSize⟩))
    ∧ (m.undoStack ≠ [] → ((m.undo c).2).redo (m.undo c).1 = (c, m)) := by
  obtain ⟨u, r, ms⟩ := m
  refine ⟨?_, ?_, ?_, ?_, ?_⟩
  · intro h
    simp only at h
    simp [UndoRedoManager.undo, h]
  · intro h
    simp only at h
    simp [UndoRedoManager.redo, h]
  · intro rest pre h
    simp only at h
    simp [UndoRedoManager.undo, h, List.getLast?_concat, List.dropLast_concat]
  · intro rest nxt h
    simp only at h
    simp [UndoRedoManager.redo, h, List.getLast?_concat, List.dropLast_concat]
  · intro h
    simp only at h
    rcases List.eq_nil_or_concat u with hnil | ⟨rest, pre, hu⟩
    · exact absurd hnil h
    · subst hu
      simp [UndoRedoManager.undo, UndoRedoManager.redo,
        List.getLast?_concat, List.dropLast_concat]

/-- Witness for C7: the spec's scenario, history holding one snapshot. -/
theorem undo_redo_C7_witness :
    (UndoRedoManager.mk ["Welcome to the Editor.".toList] [] 50).undoStack
        = [] ++ ["Welcome to the Editor.".toList]
    ∧ (UndoRedoManager.mk ["Welcome to the Editor.".toList] [] 50).undo
        ("Welcome back to the Editor.".toList)
      = ("Welcome to the Editor.".toList,
         ⟨[], [] ++ ["Welcome back to the Editor.".toList], 50⟩) :=
  ⟨by decide,
   (undo_redo_C7 (UndoRedoManager.mk ["Welcome to the Editor.".toList] [] 50)
       ("Welcome back to the Editor.".toList)).2.2.1
     [] ("Welcome to the Editor.".toList) (by decide)⟩

theorem reachableURM_invariant (m : UndoRedoManager) (h : ReachableURM m) :
    m.maxSize = 50 ∧ m.undoStack.length + m.redoStack.length ≤ 50 := by
  induction h with
  | new => exact ⟨rfl, by simp [UndoRedoManager.new]⟩
  | save m t hm ih =>
      obtain ⟨h50, hsum⟩ := ih
      unfold UndoRedoManager.saveState
      split
      · constructor
        · exact h50
        · simp only [List.length_nil]
          split
          · rename_i hgt
            simp only [List.length_append, List.length_cons, List.length_nil]
              at hgt
            simp only [List.length_tail, List.length_append, List.length_cons,
              List.length_nil]
            omega
          · rename_i hle
            simp only [List.length_append, List.length_cons, List.length_nil]
              at hle ⊢
            omega
      · exact ⟨h50, hsum⟩
  | stepUndo m c hm ih =>
      obtain ⟨h50, hsum⟩ := ih
      unfold UndoRedoManager.undo
      rcases hgl : m.undoStack.getLast? with _ | prev
      · exact ⟨h50, hsum⟩
      · have hne : m.undoStack ≠ [] := by
          intro hnil
          rw [hnil] at hgl
          simp at hgl
        have hpos : 0 < m.undoStack.length := List.length_pos.mpr hne
        simp only [List.length_dropLast, List.length_append, List.length_cons,
          List.length_nil]
        exact ⟨h50, by omega⟩
  | stepRedo m c hm ih =>
      obtain ⟨h50, hsum⟩ := ih
      unfold UndoRedoManager.redo
      rcases hgl : m.redoStack.getLast? with _ | nxt
      · exact ⟨h50, hsum⟩
      · have hne : m.redoStack ≠ [] := by
          intro hnil
          rw [hnil] at hgl
          simp at hgl
        have hpos : 0 < m.redoStack.length := List.length_pos.mpr hne
        simp only [List.length_dropLast, List.length_append, List.length_cons,
          List.length_nil]
        exact ⟨h50, by omega⟩

/-- Claim C8: in every state reachable from a fresh manager by saveState,
undo and redo calls, both stacks hold at most 50 snapshots. -/
theorem history_bounded_C8 (m : UndoRedoManager) (h : ReachableURM m) :
    m.undoStack.length ≤ 50 ∧ m.redoStack.length ≤ 50 := by
  have hinv := reachableURM_invariant m h
  omega

/-- Witness for C8 at the initial state. -/
theorem history_bounded_C8_witness :
    UndoRedoManager.new.undoStack.length ≤ 50
    ∧ UndoRedoManager.new.redoStack.length ≤ 50 :=
  history_bounded_C8 UndoRedoManager.new ReachableURM.new

theorem jsSlice2_zero (s : List Char) (k : Int) (hk : 0 ≤ k) :
    jsSlice2 s 0 k = s.take k.toNat := by
  unfold jsSlice2
  have h0 : ¬ (0 : Int) < 0 := by omega
  have hkneg : ¬ k < 0 := by omega
  simp only [h0, if_false, hkneg]
  have hmin0 : min (0 : Int) (s.length : Int) = 0 := by omega
  rw [hmin0]
  simp only [Int.toNat_zero, List.drop_zero]
  have hto : (min k (s.length : Int)).toNat = min k.toNat s.length := by omega
  rw [hto]
  rcases Nat.le_total k.toNat s.length with hle | hge
  · rw [Nat.min_eq_left hle]
  · rw [Nat.min_eq_right hge, List.take_length, List.take_of_length_le hge]

theorem jsSlice1_nonneg (s : List Char) (k : Int) (hk : 0 ≤ k) :
    jsSlice1 s k = s.drop k.toNat := by
  unfold jsSlice1 jsSlice2
  have hkneg : ¬ k < 0 := by omega
  have hlneg : ¬ (s.length : Int) < 0 := by omega
  simp only [hkneg, if_false, hlneg]
  have hminl : min (s.length : Int) (s.length : Int) = (s.length : Int) := by omega
  rw [hminl]
  simp only [Int.toNat_natCast, List.take_length]
  have hto : (min k (s.length : Int)).toNat = min k.toNat s.length := by omega
  rw [hto]
  rcases Nat.le_total k.toNat s.length with hle | hge
  · rw [Nat.min_eq_left hle]
  · rw [Nat.min_eq_right hge, List.drop_length, List.drop_of_length_le hge]

/-- Claim C3: for every buffer and in-range offsets, `insert` makes the text
`t[0:offset] + s + t[offset:]` and returns it, and `delete` makes the text
`t[0:start] + t[end:]` and returns it. -/
theorem rope_insert_delete_C3 (r : Rope) (off : Int) (s : List Char)
    (a b : Int) (hoff0 : 0 ≤ off) (hoffL : off ≤ (r.toString).length)
    (ha : 0 ≤ a) (hab : a ≤ b) (hb : b ≤ (r.toString).length) :
    ((r.insert off s).1.toString
        = (r.toString).take off.toNat ++ s ++ (r.toString).drop off.toNat
      ∧ (r.insert off s).2
        = (r.toString).take off.toNat ++ s ++ (r.toString).drop off.toNat)
    ∧ ((r.delete a b).1.toString
        = (r.toString).take a.toNat ++ (r.toString).drop b.toNat
      ∧ (r.delete a b).2
        = (r.toString).take a.toNat ++ (r.toString).drop b.toNat) := by
  have hins : (r.insert off s).2
      = (r.toString).take off.toNat ++ s ++ (r.toString).drop off.toNat := by
    unfold Rope.insert
    simp only
    rw [jsSlice2_zero _ _ hoff0, jsSlice1_nonneg _ _ hoff0]
  have hdel : (r.delete a b).2
      = (r.toString).take a.toNat ++ (r.toString).drop b.toNat := by
    unfold Rope.delete
    simp only
    rw [jsSlice2_zero _ _ ha, jsSlice1_nonneg _ _ (by omega : (0:Int) ≤ b)]
  refine ⟨⟨?_, hins⟩, ⟨?_, hdel⟩⟩
  · calc (r.insert off s).1.toString = (r.insert off s).2 := by
          unfold Rope.insert
          exact rope_toString_new _
       _ = _ := hins
  · calc (r.delete a b).1.toString = (r.delete a b).2 := by
          unfold Rope.delete
          exact rope_toString_new _
       _ = _ := hdel

/-- Witness for C3: the spec's scenario, `insert(8, "back ")` and
`delete(8, 13)` on the example buffer. -/
theorem rope_insert_delete_C3_witness :
    (0 : Int) ≤ 8
    ∧ ((Rope.new ("Welcome to the Editor.".toList)).insert 8 ("back ".toList)).2
        = ((Rope.new ("Welcome to the Editor.".toList)).toString).take
            ((8 : Int)).toNat
          ++ "back ".toList
          ++ ((Rope.new ("Welcome to the Editor.".toList)).toString).drop
            ((8 : Int)).toNat
    ∧ ((Rope.new ("Welcome to the Editor.".toList)).delete 8 13).2
        = ((Rope.new ("Welcome to the Editor.".toList)).toString).take
            ((8 : Int)).toNat
          ++ ((Rope.new ("Welcome to the Editor.".toList)).toString).drop
            ((13 : Int)).toNat :=
  ⟨by norm_num,
   ((rope_insert_delete_C3 (Rope.new ("Welcome to the Editor.".toList)) 8
      ("back ".toList) 8 13 (by norm_num)
      (by rw [rope_toString_new]; decide) (by norm_num) (by norm_num)
      (by rw [rope_toString_new]; decide)).1).2,
   ((rope_insert_delete_C3 (Rope.new ("Welcome to the Editor.".toList)) 8
      ("back ".toList) 8 13 (by norm_num)
      (by rw [rope_toString_new]; decide) (by norm_num) (by norm_num)
      (by rw [rope_toString_new]; decide)).2).2⟩

/-- Counterexample for C4: inserting at offset 3 into the two-character
buffer "ab" is out of range, yet no error is signalled and the buffer
changes to "abX" (the offset is clamped and the fragment appended). -/
theorem rope_invalid_offset_C4_cex :
    ("ab".toList : List Char).length = 2
    ∧ ((Rope.new ("ab".toList)).insert 3 ("X".toList)).1.toString
        = "abX".toList
    ∧ ((Rope.new ("ab".toList)).insert 3 ("X".toList)).2 = "abX".toList
    ∧ "abX".toList ≠ "ab".toList := by
  have h2 : ((Rope.new ("ab".toList)).insert 3 ("X".toList)).2
      = "abX".toList := by
    show jsSlice2 ((Rope.new ("ab".toList)).toString) 0 3 ++ "X".toList
        ++ jsSlice1 ((Rope.new ("ab".toList)).toString) 3 = "abX".toList
    rw [rope_toString_new]
    decide
  have h1 : ((Rope.new ("ab".toList)).insert 3 ("X".toList)).1.toString
      = ((Rope.new ("ab".toList)).insert 3 ("X".toList)).2 := by
    unfold Rope.insert
    exact rope_toString_new _
  exact ⟨by decide, h1.trans h2, h2, by decide⟩

/-- Claim C4 (amended): out-of-range offsets are not rejected and no error is
signalled; `insert` and `delete` always succeed with the offsets clamped by
the JS `slice` semantics — an insert at an offset at or beyond the length
appends the fragment, and a delete whose end reaches beyond the length keeps
exactly the first `start` characters.  The buffer always ends up holding the
returned text. -/
theorem rope_clamped_C4 (r : Rope) (off : Int) (s : List Char) (a b : Int)
    (hoff : ((r.toString).length : Int) ≤ off)
    (ha : 0 ≤ a) (hb : ((r.toString).length : Int) ≤ b) :
    ((r.insert off s).1.toString = r.toString ++ s
      ∧ (r.insert off s).2 = r.toString ++ s)
    ∧ ((r.delete a b).1.toString = (r.toString).take a.toNat
      ∧ (r.delete a b).2 = (r.toString).take a.toNat) := by
  have hoff0 : (0 : Int) ≤ off := le_trans (by positivity) hoff
  have hb0 : (0 : Int) ≤ b := le_trans (by positivity) hb
  have hoffN : (r.toString).length ≤ off.toNat := by omega
  have hbN : (r.toString).length ≤ b.toNat := by omega
  have hins : (r.insert off s).2 = r.toString ++ s := by
    show jsSlice2 r.toString 0 off ++ s ++ jsSlice1 r.toString off
        = r.toString ++ s
    rw [jsSlice2_zero _ _ hoff0, jsSlice1_nonneg _ _ hoff0,
      List.take_of_length_le hoffN, List.drop_of_length_le hoffN,
      List.append_nil]
  have hdel : (r.delete a b).2 = (r.toString).take a.toNat := by
    show jsSlice2 r.toString 0 a ++ jsSlice1 r.toString b
        = (r.toString).take a.toNat
    rw [jsSlice2_zero _ _ ha, jsSlice1_nonneg _ _ hb0,
      List.drop_of_length_le hbN, List.append_nil]
  refine ⟨⟨?_, hins⟩, ⟨?_, hdel⟩⟩
  · have h1 : (r.insert off s).1.toString = (r.insert off s).2 := by
      unfold Rope.insert
      exact rope_toString_new _
    exact h1.trans hins
  · have h1 : (r.delete a b).1.toString = (r.delete a b).2 := by
      unfold Rope.delete
      exact rope_toString_new _
    exact h1.trans hdel

/-- Witness for the amended C4: an insert at offset 5 and a delete ending at
7 on the two-character buffer "ab". -/
theorem rope_clamped_C4_witness :
    (((Rope.new ("ab".toList)).toString).length : Int) ≤ 5
    ∧ ((Rope.new ("ab".toList)).insert 5 ("X".toList)).2
        = (Rope.new ("ab".toList)).toString ++ "X".toList
    ∧ ((Rope.new ("ab".toList)).delete 1 7).2
        = ((Rope.new ("ab".toList)).toString).take ((1 : Int)).toNat :=
  ⟨by rw [rope_toString_new]; decide,
   ((rope_clamped_C4 (Rope.new ("ab".toList)) 5 ("X".toList) 1 7
      (by rw [rope_toString_new]; decide) (by norm_num)
      (by rw [rope_toString_new]; decide)).1).2,
   ((rope_clamped_C4 (Rope.new ("ab".toList)) 5 ("X".toList) 1 7
      (by rw [rope_toString_new]; decide) (by norm_num)
      (by rw [rope_toString_new]; decide)).2).2⟩

theorem bmLoop_ab_cycle (fuel : Nat) :
    ∀ acc : List Int, bmLoop ("ab".toList) ("a".toList) fuel 0 acc = none
      ∧ bmLoop ("ab".toList) ("a".toList) fuel (-1) acc = none := by
  induction fuel with
  | zero => intro acc; exact ⟨rfl, rfl⟩
  | succ k ih =>
      intro acc
      constructor
      · have hstep : bmLoop ("ab".toList) ("a".toList) (k + 1) 0 acc
            = bmLoop ("ab".toList) ("a".toList) k (-1) (acc ++ [(0 : Int)]) := rfl
        rw [hstep]
        exact (ih (acc ++ [(0 : Int)])).2
      · have hstep : bmLoop ("ab".toList) ("a".toList) (k + 1) (-1) acc
            = bmLoop ("ab".toList) ("a".toList) k 0 acc := rfl
        rw [hstep]
        exact (ih acc).1

/-- Claim C1 fails on the code: on text "ab" and pattern "a" the search never
returns at all (for no amount of fuel does the scan loop finish), so in
particular it does not return the sole match offset `[0]`.  After the match
at shift 0 the next text character `b` is absent from the bad-character
table, `m - badChar['b']` is `NaN`, and `NaN || -1` shifts the scan BACK to
`-1`; the mismatch there shifts forward by 1 and the loop repeats forever. -/
theorem boyerMoore_diverges_C1 (fuel : Nat) :
    boyerMooreSearch ("ab".toList) ("a".toList) fuel = none := by
  have h : ("a".toList : List Char).length = 0 ↔ False := by decide
  unfold boyerMooreSearch
  rw [if_neg (h.mp)]
  exact (bmLoop_ab_cycle fuel []).1

theorem bmLoop_aab_cycle (fuel : Nat) :
    ∀ acc : List Int, bmLoop ("aab".toList) ("a".toList) fuel 0 acc = none
      ∧ bmLoop ("aab".toList) ("a".toList) fuel 1 acc = none := by
  induction fuel with
  | zero => intro acc; exact ⟨rfl, rfl⟩
  | succ k ih =>
      intro acc
      constructor
      · have hstep : bmLoop ("aab".toList) ("a".toList) (k + 1) 0 acc
            = bmLoop ("aab".toList) ("a".toList) k 1 (acc ++ [(0 : Int)]) := rfl
        rw [hstep]
        exact (ih (acc ++ [(0 : Int)])).2
      · have hstep : bmLoop ("aab".toList) ("a".toList) (k + 1) 1 acc
            = bmLoop ("aab".toList) ("a".toList) k 0 (acc ++ [(1 : Int)]) := rfl
        rw [hstep]
        exact (ih (acc ++ [(1 : Int)])).1

/-- Claim C2 fails on the code: on text "aab" and pattern "a" the shift does
not strictly increase — it cycles 0, 1, 0, 1, … forever (the match at shift
1 looks up `text[2] = 'b'`, absent from the bad-character table, so
`m - badChar['b'] || -1` moves the scan backwards), hence the search never
terminates: for no amount of fuel does the loop finish. -/
theorem boyerMoore_diverges_C2 (fuel : Nat) :
    boyerMooreSearch ("aab".toList) ("a".toList) fuel = none := by
  have h : ("a".toList : List Char).length = 0 ↔ False := by decide
  unfold boyerMooreSearch
  rw [if_neg (h.mp)]
  exact (bmLoop_aab_cycle fuel []).1

theorem char_toNat_ofNat_lt (n : Nat) (h : n < 0xd800) :
    (Char.ofNat n).toNat = n := by
  have hv : n.isValidChar := Or.inl h
  rw [Char.ofNat, dif_pos hv]
  rfl

theorem char_toLower_toLower (c : Char) :
    c.toLower.toLower = c.toLower := by
  unfold Char.toLower
  by_cases h : c.toNat ≥ 65 ∧ c.toNat ≤ 90
  · rw [if_pos h]
    have hlt : c.toNat + 32 < 0xd800 := by omega
    have ht : (Char.ofNat (c.toNat + 32)).toNat = c.toNat + 32 :=
      char_toNat_ofNat_lt _ hlt
    rw [if_neg]
    rw [ht]
    omega
  · rw [if_neg h, if_neg h]

theorem lowerStr_lowerStr (s : List Char) : lowerStr (lowerStr s) = lowerStr s := by
  induction s with
  | nil => rfl
  | cons c cs ih =>
      simp only [lowerStr, List.map_cons] at ih ⊢
      rw [char_toLower_toLower, ih]

theorem lowerStr_append (s u : List Char) :
    lowerStr (s ++ u) = lowerStr s ++ lowerStr u := List.map_append _ _ _

theorem childMem_of_lookup : ∀ (ch : TrieChildren) (c : Char) (u : TrieNode),
    ch.lookup c = some u → ChildMem ch c u
  | .nil, c, u, h => by simp [TrieChildren.lookup] at h
  | .cons k child rest, c, u, h => by
      unfold TrieChildren.lookup at h
      by_cases hk : k = c
      · rw [if_pos hk] at h
        cases h
        cases hk
        exact ChildMem.head _ _ _
      · rw [if_neg hk] at h
        exact ChildMem.tail k child rest c u (childMem_of_lookup rest c u h)

theorem childMem_set : ∀ (ch : TrieChildren) (c : Char) (v : TrieNode)
    (x : Char) (u : TrieNode), ChildMem (ch.set c v) x u →
    ChildMem ch x u ∨ (x = c ∧ u = v)
  | .nil, c, v, x, u, h => by
      unfold TrieChildren.set at h
      cases h with
      | head => exact Or.inr ⟨rfl, rfl⟩
      | tail _ _ _ _ _ hm => cases hm
  | .cons k child rest, c, v, x, u, h => by
      unfold TrieChildren.set at h
      by_cases hk : k = c
      · rw [if_pos hk] at h
        cases h with
        | head => exact Or.inr ⟨hk, rfl⟩
        | tail _ _ _ _ _ hm => exact Or.inl (ChildMem.tail k child rest x u hm)
      · rw [if_neg hk] at h
        cases h with
        | head => exact Or.inl (ChildMem.head k child rest)
        | tail _ _ _ _ _ hm =>
            rcases childMem_set rest c v x u hm with hmem | hcv
            · exact Or.inl (ChildMem.tail k child rest x u hmem)
            · exact Or.inr hcv

theorem hasPath_new (w : List Char) (h : HasPath TrieNode.new w) : False := by
  cases h with
  | step _ _ _ _ _ hm _ => cases hm

theorem hasPath_insert (w : List Char) : ∀ (t : TrieNode) (v : List Char),
    HasPath (trieInsertLower t w) v → HasPath t v ∨ v = w := by
  induction w with
  | nil =>
      intro t v h
      obtain ⟨ch, e⟩ := t
      unfold trieInsertLower at h
      cases h with
      | here => exact Or.inr rfl
      | step _ _ c child cs hm hp =>
          exact Or.inl (HasPath.step ch e c child cs hm hp)
  | cons c cs ih =>
      intro t v h
      obtain ⟨ch, e⟩ := t
      unfold trieInsertLower at h
      cases h with
      | here => exact Or.inl (HasPath.here ch)
      | step _ _ x child' xs hm hp =>
          rcases childMem_set ch c _ x child' hm with hmem | ⟨hx, hu⟩
          · exact Or.inl (HasPath.step ch e x child' xs hmem hp)
          · rw [hu] at hp
            rcases ih _ xs hp with hpc | hxs
            · rcases hl : ch.lookup c with _ | ch0
              · rw [hl] at hpc
                exact absurd hpc (hasPath_new xs)
              · rw [hl] at hpc
                rw [hx]
                exact Or.inl (HasPath.step ch e c ch0 xs
                  (childMem_of_lookup ch c ch0 hl) hpc)
            · exact Or.inr (by rw [hx, hxs])

theorem trieWalk_hasPath (p : List Char) : ∀ (t node : TrieNode)
    (suf : List Char), trieWalk t p = some node → HasPath node suf →
    HasPath t (p ++ suf) := by
  induction p with
  | nil =>
      intro t node suf hw hp
      obtain ⟨ch, e⟩ := t
      unfold trieWalk at hw
      cases hw
      simpa using hp
  | cons c cs ih =>
      intro t node suf hw hp
      obtain ⟨ch, e⟩ := t
      unfold trieWalk at hw
      rcases hl : ch.lookup c with _ | child
      · rw [hl] at hw
        cases hw
      · rw [hl] at hw
        exact HasPath.step ch e c child (cs ++ suf)
          (childMem_of_lookup ch c child hl) (ih child node suf hw hp)

mutual

theorem findAllWords_spec (node : TrieNode) (cur w : List Char)
    (h : w ∈ findAllWords node cur) :
    ∃ suf, w = cur ++ suf ∧ HasPath node suf := by
  obtain ⟨ch, e⟩ := node
  unfold findAllWords at h
  have h' := List.take_subset 8 _ h
  rcases List.mem_append.mp h' with hl | hr
  · cases e with
    | false => simp at hl
    | true =>
        simp only [if_true] at hl
        rcases List.mem_singleton.mp hl with rfl
        exact ⟨[], by simp, HasPath.here ch⟩
  · obtain ⟨c, child, suf, hm, heq, hp⟩ := findAllWordsChildren_spec ch cur w hr
    exact ⟨c :: suf, heq, HasPath.step ch e c child suf hm hp⟩

theorem findAllWordsChildren_spec (ch : TrieChildren) (cur w : List Char)
    (h : w ∈ findAllWordsChildren ch cur) :
    ∃ c child suf, ChildMem ch c child ∧ w = cur ++ c :: suf
      ∧ HasPath child suf := by
  cases ch with
  | nil => simp [findAllWordsChildren] at h
  | cons k child rest =>
      unfold findAllWordsChildren at h
      rcases List.mem_append.mp h with hl | hr
      · obtain ⟨suf, heq, hp⟩ := findAllWords_spec child (cur ++ [k]) w hl
        exact ⟨k, child, suf, ChildMem.head k child rest, by simp [heq], hp⟩
      · obtain ⟨c, child', suf, hm, heq, hp⟩ :=
          findAllWordsChildren_spec rest cur w hr
        exact ⟨c, child', suf, ChildMem.tail k child rest c child' hm, heq, hp⟩

end

theorem hasPath_buildTrie_aux (ws : List (List Char)) : ∀ (t : Trie)
    (w : List Char), HasPath (ws.foldl Trie.insert t).root w →
    HasPath t.root w ∨ ∃ x, x ∈ ws ∧ w = lowerStr x := by
  induction ws with
  | nil =>
      intro t w h
      exact Or.inl h
  | cons x xs ih =>
      intro t w h
      rcases ih (t.insert x) w h with hp | ⟨y, hy, hw⟩
      · rcases hasPath_insert (lowerStr x) t.root w hp with hp0 | hw
        · exact Or.inl hp0
        · exact Or.inr ⟨x, List.mem_cons_self x xs, hw⟩
      · exact Or.inr ⟨y, List.mem_cons_of_mem x hy, hw⟩

/-- Claim C9: every word `autocomplete` returns begins — case-insensitively —
with the prefix (it literally starts with the lowercased prefix, and its
lowercasing starts with the prefix's lowercasing); the result never holds
more than the configured cap of 8 entries; and when no inserted word starts
(case-insensitively) with the prefix the result is empty. -/
theorem autocomplete_C9 (t : Trie) (pfx : List Char) :
    (∀ w, w ∈ t.find pfx → lowerStr pfx <+: w ∧ lowerStr pfx <+: lowerStr w)
    ∧ (t.find pfx).length ≤ 8
    ∧ (∀ ws, (∀ x, x ∈ ws → ¬ lowerStr pfx <+: lowerStr x) →
        (buildTrie ws).find pfx = []) := by
  refine ⟨?_, ?_, ?_⟩
  · intro w hw
    unfold Trie.find at hw
    rcases hwalk : trieWalk t.root (lowerStr pfx) with _ | node
    · rw [hwalk] at hw
      simp at hw
    · rw [hwalk] at hw
      obtain ⟨suf, heq, hp⟩ := findAllWords_spec node (lowerStr pfx) w hw
      refine ⟨⟨suf, heq.symm⟩, ⟨lowerStr suf, ?_⟩⟩
      rw [heq, lowerStr_append, lowerStr_lowerStr]
  · unfold Trie.find
    rcases hwalk : trieWalk t.root (lowerStr pfx) with _ | node
    · simp
    · show (findAllWords node (lowerStr pfx)).length ≤ 8
      obtain ⟨ch, e⟩ := node
      unfold findAllWords
      exact List.length_take_le 8 _
  · intro ws hno
    by_contra hne
    obtain ⟨w, hw⟩ := List.exists_mem_of_ne_nil _ hne
    unfold Trie.find at hw
    rcases hwalk : trieWalk (buildTrie ws).root (lowerStr pfx) with _ | node
    · rw [hwalk] at hw
      simp at hw
    · rw [hwalk] at hw
      obtain ⟨suf, heq, hp⟩ := findAllWords_spec node (lowerStr pfx) w hw
      have hroot : HasPath (buildTrie ws).root (lowerStr pfx ++ suf) :=
        trieWalk_hasPath (lowerStr pfx) (buildTrie ws).root node suf hwalk hp
      rcases hasPath_buildTrie_aux ws Trie.new (lowerStr pfx ++ suf) hroot with
        h0 | ⟨x, hx, hwx⟩
      · exact hasPath_new _ h0
      · exact hno x hx ⟨suf, hwx⟩

/-- Witness for C9: autocomplete of "He" on a trie holding "hello", and of
"zz" (matched by no word) on the same trie. -/
theorem autocomplete_C9_witness :
    ("hello".toList) ∈ (buildTrie [("hello".toList)]).find ("He".toList)
    ∧ lowerStr ("He".toList) <+: ("hello".toList)
    ∧ (buildTrie [("hello".toList)]).find ("zz".toList) = [] := by
  have hmem : ("hello".toList) ∈ (buildTrie [("hello".toList)]).find
      ("He".toList) := by decide
  refine ⟨hmem, ?_, ?_⟩
  · exact ((autocomplete_C9 (buildTrie [("hello".toList)]) ("He".toList)).1 _
      hmem).1
  · exact (autocomplete_C9 (buildTrie [("hello".toList)]) ("zz".toList)).2.2
      [("hello".toList)] (by decide)

theorem mem_jsSetDedupAux {α : Type} [DecidableEq α] (l : List α) :
    ∀ (seen : List α) (x : α),
      x ∈ jsSetDedupAux seen l ↔ x ∈ l ∧ x ∉ seen := by
  induction l with
  | nil =>
      intro seen x
      simp [jsSetDedupAux]
  | cons a as ih =>
      intro seen x
      unfold jsSetDedupAux
      by_cases ha : a ∈ seen
      · rw [if_pos ha, ih seen x]
        constructor
        · rintro ⟨hx, hns⟩
          exact ⟨List.mem_cons_of_mem a hx, hns⟩
        · rintro ⟨hx, hns⟩
          rcases List.mem_cons.mp hx with rfl | hx'
          · exact absurd ha hns
          · exact ⟨hx', hns⟩
      · rw [if_neg ha]
        constructor
        · intro hx
          rcases List.mem_cons.mp hx with rfl | hx'
          · exact ⟨List.mem_cons_self _ _, ha⟩
          · obtain ⟨h1, h2⟩ := (ih (a :: seen) x).mp hx'
            exact ⟨List.mem_cons_of_mem a h1,
              fun hs => h2 (List.mem_cons_of_mem a hs)⟩
        · rintro ⟨hx, hns⟩
          rcases List.mem_cons.mp hx with rfl | hx'
          · exact List.mem_cons_self _ _
          · by_cases hxa : x = a
            · rw [hxa]
              exact List.mem_cons_self _ _
            · refine List.mem_cons_of_mem _ ((ih (a :: seen) x).mpr ⟨hx', ?_⟩)
              intro hs
              rcases List.mem_cons.mp hs with h | h
              · exact hxa h
              · exact hns h

theorem nodup_jsSetDedupAux {α : Type} [DecidableEq α] (l : List α) :
    ∀ seen : List α, (jsSetDedupAux seen l).Nodup := by
  induction l with
  | nil =>
      intro seen
      simp [jsSetDedupAux]
  | cons a as ih =>
      intro seen
      unfold jsSetDedupAux
      by_cases ha : a ∈ seen
      · rw [if_pos ha]
        exact ih seen
      · rw [if_neg ha]
        refine List.nodup_cons.mpr ⟨?_, ih (a :: seen)⟩
        intro hmem
        exact ((mem_jsSetDedupAux as (a :: seen) a).mp hmem).2
          (List.mem_cons_self _ _)

/-- Claim C10 (amended): `checkSpelling` returns exactly the distinct
out-of-vocabulary words among the tokens of the text, where the tokens are
the maximal runs of 3 or more ASCII letters delimited by the regex's `\b`
word boundaries (not adjacent to a digit or underscore); a word that the
trie contains — a case-insensitive test — is never reported, and the result
holds no duplicates. -/
theorem checkSpelling_C10 (trie : Trie) (text : List Char) :
    (∀ w, w ∈ checkSpelling trie text ↔
        w ∈ extractTokens text ∧ trie.contains w = false)
    ∧ (checkSpelling trie text).Nodup := by
  constructor
  · intro w
    unfold checkSpelling jsSetDedup
    rw [mem_jsSetDedupAux]
    simp [List.mem_filter]
  · exact nodup_jsSetDedupAux _ _

/-- Counterexample for C10 as stated: in the text "abc1" the string "abc" is
a run of 3 alphabetic characters and is not in the (empty) vocabulary, yet
`checkSpelling` reports nothing — the regex `\b` boundary rejects a run
followed by the digit `1`. -/
theorem checkSpelling_C10_cex :
    checkSpelling Trie.new ("abc1".toList) = []
    ∧ ("abc".toList) ∈ claimTokens ("abc1".toList)
    ∧ Trie.new.contains ("abc".toList) = false := by
  refine ⟨by decide, by decide, by decide⟩
